import Mathlib

/-!
Shallow embedding of `src/app_apogee.py` (a Streamlit report over a CSV of
APOGEE user-privilege records) and verification of its specification.

Modelling conventions:
* pandas cells are `Option String` (`none` models `NaN`); `read_csv`'s numeric
  dtype inference is not modelled, cells stay strings.
* A data frame is a `RawTable` (header list plus rows of cells); the three
  derived list-columns added by `charger_donnees` live in `LoadedData`.
* `Series.value_counts()` is modelled as: counts of the distinct values in
  first-occurrence order, sorted by descending count with a stable sort
  (pandas computes uniques in first-seen hash-table order and sorts the
  counts stably, so ties keep first-seen order).
* Python `re.split(r',\s+', s)` and `str.strip()` are implemented character
  by character over the ASCII whitespace class, which covers the data here.
-/

namespace AppApogee

/-- Python's `\s` whitespace class (ASCII part, which covers the source data). -/
def isPySpace (c : Char) : Bool :=
  c = ' ' || c = '\t' || c = '\n' || c = '\r' || c = '\x0b' || c = '\x0c'

/-- Whether a character list starts with a whitespace character. -/
def headIsSpace : List Char → Bool
  | [] => false
  | y :: _ => isPySpace y

/-- One left-to-right pass implementing `re.split(r',\s+', s)`: a comma
immediately followed by at least one whitespace character separates pieces,
and the greedy `\s+` consumes the maximal whitespace run (tracked by the
`skipping` flag). `cur` is the reversed piece being accumulated. -/
def reSplitCommaWs (skipping : Bool) (cur : List Char) : List Char → List (List Char)
  | [] => [cur.reverse]
  | x :: xs =>
    if skipping && isPySpace x then
      reSplitCommaWs true cur xs
    else if x = ',' && headIsSpace xs then
      cur.reverse :: reSplitCommaWs true [] xs
    else
      reSplitCommaWs false (x :: cur) xs

/-- Python `str.strip()`: drop leading and trailing whitespace. -/
def stripChars (l : List Char) : List Char :=
  ((l.dropWhile isPySpace).reverse.dropWhile isPySpace).reverse

/-- `str.strip()` on strings. -/
def strip (s : String) : String :=
  String.mk (stripChars s.data)

/-- `nettoyer_liste` (src/app_apogee.py, lines 18-22): `NaN` becomes `[]`,
otherwise split on `r',\s+'`, strip each piece, keep the non-empty pieces. -/
def nettoyer_liste (texte : Option String) : List String :=
  match texte with
  | none => []
  | some s =>
    ((reSplitCommaWs false [] s.data).map (fun e => strip (String.mk e))).filter
      (fun e => e ≠ "")

/-- One normalized row of the source table (data model of the spec). -/
structure UserRecord where
  nom_prenom : String
  email : String
  etablissement : String
  privileges : List String
  centres_gestion : List String
  centres_traitement : List String
  deriving DecidableEq

/-- `df[df['Etablissement'].isin(etablissements)]` (line 65). -/
def filterByInstitution (records : List UserRecord) (etablissements : List String) :
    List UserRecord :=
  records.filter (fun r => etablissements.contains r.etablissement)

/-- The privilege filter (lines 66-69): applied only when the selection is
non-empty; keeps rows having at least one selected privilege. -/
def filterByAnyPrivilege (records : List UserRecord) (selection : List String) :
    List UserRecord :=
  if selection.isEmpty then records
  else records.filter (fun r => selection.any (fun p => r.privileges.contains p))

/-- Distinct elements in first-occurrence order (pandas `unique()` /
hash-table key order); `seen` accumulates the values already emitted. -/
def uniquesAux (seen : List String) : List String → List String
  | [] => []
  | x :: xs => if seen.contains x then uniquesAux seen xs else x :: uniquesAux (x :: seen) xs

/-- Distinct elements of a list in first-occurrence order. -/
def uniques (l : List String) : List String :=
  uniquesAux [] l

/-- `df['Etablissement'].unique()` (line 54). -/
def allInstitutions (records : List UserRecord) : List String :=
  uniques (records.map (fun r => r.etablissement))

/-- Descending-count order on `(value, count)` pairs. -/
def countGE (a b : String × Nat) : Prop :=
  b.2 ≤ a.2

instance : DecidableRel countGE := fun a b => Nat.decLe b.2 a.2

instance : IsTotal (String × Nat) countGE := ⟨fun a b => Nat.le_total b.2 a.2⟩

instance : IsTrans (String × Nat) countGE := ⟨fun _ _ _ h1 h2 => Nat.le_trans h2 h1⟩

/-- The `(value, count)` pairs of a series, in first-occurrence order. -/
def countPairs (l : List String) : List (String × Nat) :=
  (uniques l).map (fun u => (u, l.count u))

/-- pandas `Series.value_counts()`: counts sorted by descending count;
the sort is stable, so tied values stay in first-occurrence order. -/
def valueCounts (l : List String) : List (String × Nat) :=
  List.insertionSort countGE (countPairs l)

/-- `users_par_etab = df_filtre['Etablissement'].value_counts()` (line 92). -/
def countByInstitution (records : List UserRecord) : List (String × Nat) :=
  valueCounts (records.map (fun r => r.etablissement))

/-- `[p for sublist in df['Privileges'] for p in sublist]`: all privilege
occurrences in row order. -/
def allPrivilegeOccurrences (records : List UserRecord) : List String :=
  records.flatMap (fun r => r.privileges)

/-- `value_counts().head(k)` over the flattened privilege occurrences. -/
def topPrivileges (records : List UserRecord) (k : Nat) : List (String × Nat) :=
  (valueCounts (allPrivilegeOccurrences records)).take k

/-- `top_privileges` (lines 119-121): the source hard-codes `head(5)`. -/
def top_privileges (df_filtre : List UserRecord) : List (String × Nat) :=
  topPrivileges df_filtre 5

/-- The distinct privileges of the entire unfiltered dataset
(`set([p for sublist in df['Privileges'] for p in sublist])`, line 179),
as a first-occurrence-ordered list (only membership is ever used). -/
def allPrivileges (df : List UserRecord) : List String :=
  uniques (allPrivilegeOccurrences df)

/-- `tous_privileges` after `discard('Théses HDR')` (lines 179-180). -/
def tous_privileges (df : List UserRecord) : List String :=
  (allPrivileges df).filter (fun p => p ≠ "Théses HDR")

/-- `users_tous_sauf_theses` (lines 182-184): rows of the filtered view whose
privileges contain every privilege of the unfiltered dataset except
`'Théses HDR'`. -/
def users_tous_sauf_theses (df df_filtre : List UserRecord) : List UserRecord :=
  df_filtre.filter (fun r => (tous_privileges df).all (fun priv => r.privileges.contains priv))

/-- A raw tabular source: header names and rows of optional cells. -/
structure RawTable where
  headers : List String
  rows : List (List (Option String))
  deriving DecidableEq

/-- Position of a column name in a header list (`df[name]` lookup). -/
def idxOfName : List String → String → Option Nat
  | [], _ => none
  | h :: hs, name => if h = name then some 0 else (idxOfName hs name).map (· + 1)

/-- Extract a named column; `none` when the column is absent (a `KeyError`
in the source). Cells missing from a short row read as `NaN`. -/
def getCol (t : RawTable) (name : String) : Option (List (Option String)) :=
  (idxOfName t.headers name).map (fun i => t.rows.map (fun row => (row[i]?).join))

/-- The parsed data frame: the raw table plus the three derived list columns. -/
structure LoadedData where
  table : RawTable
  privileges : List (List String)
  centres_gestion : List (List String)
  centres_traitement : List (List String)
  deriving DecidableEq

/-- `charger_donnees` (lines 26-35): `none` input models a `read_csv` failure
(bad encoding or unparsable structure). Any exception — including a missing
`'Privilèges APOGEE'`, `'Centre Gestion'` or `'Centre Traitement'` column —
is caught and turned into `None` (an error message with no data). -/
def charger_donnees : Option RawTable → Option LoadedData
  | none => none
  | some t =>
    match getCol t "Privilèges APOGEE", getCol t "Centre Gestion", getCol t "Centre Traitement" with
    | some pc, some cg, some ct =>
      some ⟨t, pc.map nettoyer_liste, cg.map nettoyer_liste, ct.map nettoyer_liste⟩
    | _, _, _ => none

/-- Python `repr` of a string, as used by `DataFrame.to_csv` on list cells. -/
def pyStrRepr (s : String) : String :=
  "'" ++ s ++ "'"

/-- Python `str(list)`: how `to_csv` serializes a list-valued cell. -/
def pyListRepr (l : List String) : String :=
  "[" ++ String.intercalate ", " (l.map pyStrRepr) ++ "]"

/-- A cell after a `to_csv` / `read_csv` round trip: `NaN` and the empty
string both come back as `NaN`; other strings come back unchanged. -/
def exportCell : Option String → Option String
  | none => none
  | some s => if s = "" then none else some s

/-- The exported rows: each raw row (cells round-tripped) followed by the
`str(list)` serializations of the three derived columns. -/
def exportRows : List (List (Option String)) → List (List String) → List (List String) →
    List (List String) → List (List (Option String))
  | [], _, _, _ => []
  | _ :: _, [], _, _ => []
  | _ :: _, _ :: _, [], _ => []
  | _ :: _, _ :: _, _ :: _, [] => []
  | r :: rs, p :: ps, g :: gs, t :: ts =>
    (r.map exportCell ++ [some (pyListRepr p), some (pyListRepr g), some (pyListRepr t)]) ::
      exportRows rs ps gs ts

/-- `df_filtre.to_csv(index=False)` (line 220) viewed as a table: all columns
of the loaded frame, the three derived ones serialized via `str(list)`. -/
def exportTable (d : LoadedData) : RawTable :=
  ⟨d.table.headers ++ ["Privileges", "Centres_Gestion", "Centres_Traitement"],
    exportRows d.table.rows d.privileges d.centres_gestion d.centres_traitement⟩

/-- Keep the entries of a list selected by a boolean mask (pandas boolean
row selection, which the two filters both are). -/
def maskList {α : Type} : List Bool → List α → List α
  | [], _ => []
  | _ :: _, [] => []
  | b :: bs, x :: xs => if b then x :: maskList bs xs else maskList bs xs

/-- Row selection applied consistently to a loaded frame (how `df_filtre`
is derived from `df`). -/
def maskData (d : LoadedData) (mask : List Bool) : LoadedData :=
  ⟨⟨d.table.headers, maskList mask d.table.rows⟩, maskList mask d.privileges,
    maskList mask d.centres_gestion, maskList mask d.centres_traitement⟩

/-- The derived list columns agree with re-parsing the corresponding raw
columns, and rows are as wide as the header. `charger_donnees` establishes
this and row selection preserves it. -/
structure Coherent (d : LoadedData) : Prop where
  priv : ∃ pc, getCol d.table "Privilèges APOGEE" = some pc ∧
    d.privileges = pc.map nettoyer_liste
  gest : ∃ cg, getCol d.table "Centre Gestion" = some cg ∧
    d.centres_gestion = cg.map nettoyer_liste
  trait : ∃ ct, getCol d.table "Centre Traitement" = some ct ∧
    d.centres_traitement = ct.map nettoyer_liste
  rowlen : ∀ row ∈ d.table.rows, row.length = d.table.headers.length

/-- The session state: the record set parsed once per uploaded file. -/
structure Session where
  df : List UserRecord

/-- The module-level filter pipeline (lines 65-69) as an explicit state
pass: it returns the session together with the derived `df_filtre`. -/
def runFilters (s : Session) (etablissements selection : List String) :
    Session × List UserRecord :=
  (s, filterByAnyPrivilege (filterByInstitution s.df etablissements) selection)

/-! ### Sample data used by concrete scenarios and witnesses -/

def recA : UserRecord := ⟨"A. Un", "a@x.fr", "UniA", ["Gestion", "Inscription"], [], []⟩

def recB : UserRecord := ⟨"B. Deux", "b@x.fr", "UniB", ["Gestion"], [], []⟩

def recT : UserRecord := ⟨"T. Trois", "t@x.fr", "UniA", ["Théses HDR"], [], []⟩

def recAll : UserRecord :=
  ⟨"C. Quatre", "c@x.fr", "UniB", ["Théses HDR", "Gestion", "Inscription"], [], []⟩

def recUB : UserRecord := ⟨"U. B", "ub@x.fr", "UniB", [], [], []⟩

def recUA : UserRecord := ⟨"U. A", "ua@x.fr", "UniA", [], [], []⟩

/-- A dataset whose distinct privileges are exactly
`{"Théses HDR", "Gestion", "Inscription"}` (the scenario of the spec). -/
def scenarioDf : List UserRecord := [recT, recA, recB]

def t0 : RawTable :=
  ⟨["Nom & Prenom", "Email", "Etablissement", "Privilèges APOGEE", "Centre Gestion",
      "Centre Traitement"],
    [[some "Jean Dupont", some "jean@x.fr", some "UniA", some "Théses HDR, Gestion",
      some "CentreA", some "CentreB"]]⟩

def d0 : LoadedData :=
  ⟨t0, [["Théses HDR", "Gestion"]], [["CentreA"]], [["CentreB"]]⟩

/-- `t0` without its `Etablissement` column (but with the three columns the
loader actually touches). -/
def tMissing : RawTable :=
  ⟨["Nom & Prenom", "Email", "Privilèges APOGEE", "Centre Gestion", "Centre Traitement"],
    [[some "Jean Dupont", some "jean@x.fr", some "Théses HDR, Gestion", some "CentreA",
      some "CentreB"]]⟩

/-! ### Lemmas about `uniques` -/

theorem mem_uniquesAux (a : String) (l : List String) :
    ∀ seen, a ∈ uniquesAux seen l ↔ a ∈ l ∧ a ∉ seen := by
  induction l with
  | nil => intro seen; simp [uniquesAux]
  | cons x xs ih =>
    intro seen
    rw [uniquesAux]
    split_ifs with h
    · have hx : x ∈ seen := by simpa using h
      rw [ih seen]
      simp only [List.mem_cons]
      constructor
      · rintro ⟨hm, hs⟩
        exact ⟨Or.inr hm, hs⟩
      · rintro ⟨rfl | hm, hs⟩
        · exact absurd hx hs
        · exact ⟨hm, hs⟩
    · have hx : x ∉ seen := by simpa using h
      simp only [List.mem_cons, ih (x :: seen)]
      by_cases hax : a = x <;> simp [hax, hx]

theorem mem_uniques {a : String} {l : List String} : a ∈ uniques l ↔ a ∈ l := by
  rw [uniques, mem_uniquesAux]
  simp

theorem nodup_uniquesAux (l : List String) : ∀ seen, (uniquesAux seen l).Nodup := by
  induction l with
  | nil => intro seen; simp [uniquesAux]
  | cons x xs ih =>
    intro seen
    rw [uniquesAux]
    split_ifs with h
    · exact ih seen
    · refine List.nodup_cons.mpr ⟨?_, ih (x :: seen)⟩
      intro hmem
      exact ((mem_uniquesAux x xs (x :: seen)).mp hmem).2 (List.mem_cons_self x seen)

theorem nodup_uniques (l : List String) : (uniques l).Nodup :=
  nodup_uniquesAux l []

theorem uniques_perm_dedup (l : List String) : List.Perm (uniques l) l.dedup := by
  rw [List.perm_ext_iff_of_nodup (nodup_uniques l) l.nodup_dedup]
  intro a
  rw [mem_uniques, List.mem_dedup]

/-! ### Lemmas about `strip` -/

theorem dropWhile_cases (p : Char → Bool) (l : List Char) :
    l.dropWhile p = [] ∨ ∃ a t, l.dropWhile p = a :: t ∧ p a = false := by
  induction l with
  | nil => exact Or.inl rfl
  | cons x xs ih =>
    rw [List.dropWhile_cons]
    split_ifs with h
    · exact ih
    · exact Or.inr ⟨x, xs, rfl, by simpa using h⟩

theorem stripChars_cases (l : List Char) :
    stripChars l = [] ∨ ∃ a t, stripChars l = a :: t ∧ isPySpace a = false := by
  rcases dropWhile_cases isPySpace l with h | ⟨a, t, h, ha⟩
  · left
    rw [stripChars, h]
    rfl
  · rw [stripChars, h]
    have hz : (a :: t).reverse.dropWhile isPySpace ≠ [] := by
      rw [Ne, List.dropWhile_eq_nil_iff]
      push_neg
      exact ⟨a, by simp, by simp [ha]⟩
    have hsplit := List.takeWhile_append_dropWhile (p := isPySpace) (l := (a :: t).reverse)
    cases hzr : ((a :: t).reverse.dropWhile isPySpace).reverse with
    | nil =>
      exact absurd (by simpa using congrArg List.reverse hzr) hz
    | cons b bs =>
      right
      refine ⟨b, bs, rfl, ?_⟩
      have h2 := congrArg List.reverse hsplit
      rw [List.reverse_append, List.reverse_reverse, hzr, List.cons_append] at h2
      have hb : b = a := ((List.cons.injEq _ _ _ _).mp h2).1
      rw [hb]
      exact ha

theorem stripChars_stripChars_ne_nil {l : List Char} (h : stripChars l ≠ []) :
    stripChars (stripChars l) ≠ [] := by
  rcases stripChars_cases l with h0 | ⟨a, t, h0, ha⟩
  · exact absurd h0 h
  · rw [h0, stripChars]
    have h1 : (a :: t).dropWhile isPySpace = a :: t := by
      rw [List.dropWhile_cons, if_neg (by simp [ha])]
    rw [h1]
    intro hc
    have h2 : (a :: t).reverse.dropWhile isPySpace = [] := by
      simpa using congrArg List.reverse hc
    rw [List.dropWhile_eq_nil_iff] at h2
    have h3 := h2 a (by simp)
    simp [ha] at h3

/-! ### Stability of the `value_counts` sort -/

theorem filter_orderedInsert (c : Nat) (x : String × Nat) (l : List (String × Nat)) :
    (List.orderedInsert countGE x l).filter (fun e => e.2 = c) =
      if x.2 = c then x :: l.filter (fun e => e.2 = c)
      else l.filter (fun e => e.2 = c) := by
  rw [List.orderedInsert_eq_take_drop, List.filter_append]
  by_cases hx : x.2 = c
  · have htake : (l.takeWhile fun b => ¬countGE x b).filter (fun e => e.2 = c) = [] := by
      rw [List.filter_eq_nil_iff]
      intro e he
      have hq := List.mem_takeWhile_imp he
      simp only [countGE, decide_eq_true_eq] at hq
      simp only [decide_eq_true_eq]
      omega
    have hl : l.filter (fun e => e.2 = c) =
        (l.dropWhile fun b => ¬countGE x b).filter (fun e => e.2 = c) := by
      conv_lhs => rw [← List.takeWhile_append_dropWhile (p := fun b => ¬countGE x b) (l := l)]
      rw [List.filter_append, htake, List.nil_append]
    rw [htake, List.nil_append, List.filter_cons, if_pos hx, hl]
    simp [hx]
  · have hl : l.filter (fun e => e.2 = c) =
        (l.takeWhile fun b => ¬countGE x b).filter (fun e => e.2 = c) ++
          (l.dropWhile fun b => ¬countGE x b).filter (fun e => e.2 = c) := by
      conv_lhs => rw [← List.takeWhile_append_dropWhile (p := fun b => ¬countGE x b) (l := l)]
      rw [List.filter_append]
    rw [List.filter_cons, if_neg (by simpa using hx), if_neg hx, hl]

theorem filter_insertionSort (c : Nat) (l : List (String × Nat)) :
    (List.insertionSort countGE l).filter (fun e => e.2 = c) =
      l.filter (fun e => e.2 = c) := by
  induction l with
  | nil => rfl
  | cons x xs ih =>
    rw [List.insertionSort, filter_orderedInsert, List.filter_cons]
    by_cases hx : x.2 = c <;> simp [hx, ih]

/-! ### `valueCounts` characterization -/

theorem valueCounts_perm (l : List String) : List.Perm (valueCounts l) (countPairs l) :=
  List.perm_insertionSort countGE (countPairs l)

theorem mem_valueCounts {l : List String} {p : String × Nat} :
    p ∈ valueCounts l ↔ p.1 ∈ l ∧ p.2 = l.count p.1 := by
  rw [(valueCounts_perm l).mem_iff, countPairs]
  constructor
  · intro hp
    rcases List.mem_map.mp hp with ⟨u, hu, rfl⟩
    exact ⟨mem_uniques.mp hu, rfl⟩
  · rintro ⟨h1, h2⟩
    exact List.mem_map.mpr ⟨p.1, mem_uniques.mpr h1, by rw [← h2]⟩

theorem sum_valueCounts (l : List String) : ((valueCounts l).map Prod.snd).sum = l.length := by
  have h1 : ((valueCounts l).map Prod.snd).sum = ((countPairs l).map Prod.snd).sum :=
    ((valueCounts_perm l).map Prod.snd).sum_eq
  rw [h1, countPairs, List.map_map]
  show ((uniques l).map (fun u => l.count u)).sum = l.length
  have h3 : List.Perm ((uniques l).map (fun u => l.count u)) (l.dedup.map (fun u => l.count u)) :=
    (uniques_perm_dedup l).map _
  rw [h3.sum_eq]
  exact List.sum_map_count_dedup_eq_length l

theorem sorted_valueCounts (l : List String) :
    (valueCounts l).Pairwise (fun a b => b.2 ≤ a.2) :=
  (List.sorted_insertionSort countGE (countPairs l)).imp (fun h => h)

/-- The membership test at the heart of `users_tous_sauf_theses`. -/
theorem tous_privileges_all_iff (df : List UserRecord) (r : UserRecord) :
    ((tous_privileges df).all (fun priv => r.privileges.contains priv) = true) ↔
      ∀ p ∈ allPrivileges df, p ≠ "Théses HDR" → p ∈ r.privileges := by
  simp only [List.all_eq_true, tous_privileges, List.mem_filter, and_imp,
    decide_eq_true_eq, List.contains_iff_exists_mem_beq, beq_iff_eq, ne_eq]
  constructor
  · intro h p hp hne
    rcases h p hp hne with ⟨q, hq, rfl⟩
    exact hq
  · intro h p hp hne
    exact ⟨p, h p hp hne, rfl⟩

/-! ### C1: the multi-value cell parser -/

/-- C1: `nettoyer_liste` splits a raw cell on a comma followed by one-or-more
whitespace characters, trims each piece and drops the pieces that become
empty; a null or blank cell yields `[]` (not an error); no returned element
is empty (even after a further trim); and the cell `"Théses HDR, Gestion"`
parses to `["Théses HDR", "Gestion"]`. -/
theorem nettoyer_liste_spec (c : Option String) :
    (∀ e ∈ nettoyer_liste c, e ≠ "" ∧ strip e ≠ "") ∧
    nettoyer_liste none = [] ∧
    nettoyer_liste (some "") = [] ∧
    nettoyer_liste (some "   ") = [] ∧
    nettoyer_liste (some "Théses HDR, Gestion") = ["Théses HDR", "Gestion"] := by
  refine ⟨?_, rfl, by decide, by decide, by decide⟩
  intro e he
  match c with
  | none => simp [nettoyer_liste] at he
  | some s =>
    rw [nettoyer_liste] at he
    have hne : e ≠ "" := by
      have h2 := (List.mem_filter.mp he).2
      simpa using h2
    refine ⟨hne, ?_⟩
    rcases List.mem_map.mp (List.mem_filter.mp he).1 with ⟨piece, hp, rfl⟩
    have hz : stripChars piece ≠ [] := by
      intro h0
      apply hne
      apply String.ext
      show stripChars ((String.mk piece).data) = "".data
      rw [show (String.mk piece).data = piece from rfl, h0]
    have h2 := stripChars_stripChars_ne_nil hz
    intro hcontra
    apply h2
    have h3 := congrArg String.data hcontra
    exact h3

/-- Witness for C1 at the scenario cell. -/
theorem nettoyer_liste_spec_witness :
    "Théses HDR" ≠ "" ∧ strip "Théses HDR" ≠ "" :=
  (nettoyer_liste_spec (some "Théses HDR, Gestion")).1 "Théses HDR" (by decide)

/-! ### C2: the privilege filter -/

/-- C2: with an empty selection the privilege filter is a no-op (returns the
input unchanged); with a non-empty selection it keeps exactly the records
having at least one privilege in the selection. -/
theorem filterByAnyPrivilege_spec (R : List UserRecord) (P : List String) (hP : P ≠ []) :
    filterByAnyPrivilege R [] = R ∧
    (filterByAnyPrivilege R P).Sublist R ∧
    ∀ r, r ∈ filterByAnyPrivilege R P ↔ r ∈ R ∧ ∃ p ∈ P, p ∈ r.privileges := by
  have hne : P.isEmpty = false := by
    cases P with
    | nil => exact absurd rfl hP
    | cons a l => rfl
  refine ⟨rfl, ?_, ?_⟩
  · rw [filterByAnyPrivilege, hne]
    simp only [Bool.false_eq_true, if_false]
    exact List.filter_sublist R
  · intro r
    rw [filterByAnyPrivilege, hne]
    simp only [Bool.false_eq_true, if_false, List.mem_filter, List.any_eq_true]
    simp

/-- Witness for C2 at a concrete record list and selection. -/
theorem filterByAnyPrivilege_spec_witness :
    filterByAnyPrivilege [recA, recT] [] = [recA, recT] ∧
    (recA ∈ filterByAnyPrivilege [recA, recT] ["Gestion"] ↔
      recA ∈ [recA, recT] ∧ ∃ p ∈ ["Gestion"], p ∈ recA.privileges) := by
  have h := filterByAnyPrivilege_spec [recA, recT] ["Gestion"] (by decide)
  exact ⟨h.1, h.2.2 recA⟩

/-! ### C3: the institution filter -/

/-- C3: the institution filter keeps exactly the records whose institution is
selected; an empty selection yields the empty result, and selecting all
observed institutions returns the input unchanged. -/
theorem filterByInstitution_spec (R : List UserRecord) (S : List String) :
    (filterByInstitution R S).Sublist R ∧
    (∀ r, r ∈ filterByInstitution R S ↔ r ∈ R ∧ r.etablissement ∈ S) ∧
    filterByInstitution R [] = [] ∧
    filterByInstitution R (allInstitutions R) = R := by
  refine ⟨List.filter_sublist R, ?_, ?_, ?_⟩
  · intro r
    simp [filterByInstitution, List.mem_filter]
  · simp [filterByInstitution]
  · rw [filterByInstitution]
    rw [List.filter_eq_self]
    intro r hr
    exact List.elem_eq_true_of_mem
      (mem_uniques.mpr (List.mem_map_of_mem _ hr))

/-- Witness for C3 at a concrete record list. -/
theorem filterByInstitution_spec_witness :
    filterByInstitution [recUA, recUB] [] = [] ∧
    filterByInstitution [recUA, recUB] (allInstitutions [recUA, recUB]) = [recUA, recUB] := by
  have h := filterByInstitution_spec [recUA, recUB] []
  exact ⟨h.2.2.1, h.2.2.2⟩

/-! ### C4: users with every privilege except `'Théses HDR'` -/

/-- C4: `users_tous_sauf_theses` takes its universe from the entire
unfiltered dataset, removes `'Théses HDR'`, and keeps exactly the records of
the filtered view whose privileges contain every remaining privilege; in the
three-privilege scenario, `recA` (`Gestion, Inscription`) matches and `recB`
(`Gestion` only) does not. -/
theorem users_tous_sauf_theses_spec (df df_filtre : List UserRecord) :
    (∀ r, r ∈ users_tous_sauf_theses df df_filtre ↔
      r ∈ df_filtre ∧ ∀ p ∈ allPrivileges df, p ≠ "Théses HDR" → p ∈ r.privileges) ∧
    allPrivileges scenarioDf = ["Théses HDR", "Gestion", "Inscription"] ∧
    recA ∈ users_tous_sauf_theses scenarioDf scenarioDf ∧
    recB ∉ users_tous_sauf_theses scenarioDf scenarioDf := by
  refine ⟨?_, by decide, by decide, by decide⟩
  intro r
  rw [users_tous_sauf_theses, List.mem_filter, tous_privileges_all_iff]

/-- Witness for C4 at the scenario dataset. -/
theorem users_tous_sauf_theses_spec_witness :
    recA ∈ scenarioDf ∧
    ∀ p ∈ allPrivileges scenarioDf, p ≠ "Théses HDR" → p ∈ recA.privileges :=
  ((users_tous_sauf_theses_spec scenarioDf scenarioDf).1 recA).mp (by decide)

/-! ### C10: the excluded privilege is not required to be absent -/

/-- C10: a record matches `users_tous_sauf_theses` as soon as it has every
privilege of the reduced universe — also when it has `'Théses HDR'` itself
(absence is not required); and when the reduced universe is empty, every
record of the filtered view matches vacuously. -/
theorem users_tous_sauf_theses_no_exclusion (df df_filtre : List UserRecord)
    (r : UserRecord) (hr : r ∈ df_filtre)
    (hall : ∀ p ∈ allPrivileges df, p ≠ "Théses HDR" → p ∈ r.privileges) :
    r ∈ users_tous_sauf_theses df df_filtre ∧
    (tous_privileges df = [] → users_tous_sauf_theses df df_filtre = df_filtre) := by
  constructor
  · rw [users_tous_sauf_theses, List.mem_filter]
    exact ⟨hr, (tous_privileges_all_iff df r).mpr hall⟩
  · intro h0
    rw [users_tous_sauf_theses, h0]
    simp

/-- Witness for C10: `recAll` holds `'Théses HDR'` together with all other
privileges and still matches; a dataset whose only privilege is
`'Théses HDR'` has an empty reduced universe and everything matches. -/
theorem users_tous_sauf_theses_no_exclusion_witness :
    recAll ∈ users_tous_sauf_theses [recT, recAll] [recT, recAll] ∧
    users_tous_sauf_theses [recT] [recT] = [recT] := by
  constructor
  · exact (users_tous_sauf_theses_no_exclusion [recT, recAll] [recT, recAll] recAll
      (by decide) (by decide)).1
  · exact (users_tous_sauf_theses_no_exclusion [recT] [recT] recT
      (by decide) (by decide)).2 (by decide)

/-! ### C5: counts by institution -/

/-- The display order claimed by the spec for `countByInstitution`
(modelled from the spec's words, for comparison with the code): descending
count, ties broken by institution name ascending. -/
def orderedByCountThenName (l : List (String × Nat)) : Prop :=
  l.Pairwise (fun a b => b.2 < a.2 ∨ (a.2 = b.2 ∧ (compare a.1 b.1).isLE = true))

/-- C5 counterexample: with institutions `UniB` then `UniA` (both count 1),
`value_counts` keeps the tie in first-occurrence order `UniB, UniA`, which is
not institution-name-ascending order. -/
theorem countByInstitution_tie_cex :
    countByInstitution [recUB, recUA] = [("UniB", 1), ("UniA", 1)] ∧
    ¬ orderedByCountThenName (countByInstitution [recUB, recUA]) := by
  constructor
  · decide
  · rw [orderedByCountThenName]
    decide

/-- C5 as amended: `countByInstitution` maps each institution occurring in
`R` to its number of records, every institution occurring in `R` is listed
with its count, the counts sum to `R.length`, and the entries are ordered by
descending count with ties kept in first-seen order (the stable-sort
characterization: restricting to any fixed count gives exactly the
first-occurrence-ordered count pairs). -/
theorem countByInstitution_spec (R : List UserRecord) :
    (∀ p ∈ countByInstitution R, p.1 ∈ R.map (fun r => r.etablissement) ∧
      p.2 = (R.map (fun r => r.etablissement)).count p.1) ∧
    (∀ inst ∈ R.map (fun r => r.etablissement),
      (inst, (R.map (fun r => r.etablissement)).count inst) ∈ countByInstitution R) ∧
    ((countByInstitution R).map Prod.snd).sum = R.length ∧
    (countByInstitution R).Pairwise (fun a b => b.2 ≤ a.2) ∧
    ∀ c, (countByInstitution R).filter (fun e => e.2 = c) =
      (countPairs (R.map (fun r => r.etablissement))).filter (fun e => e.2 = c) := by
  refine ⟨?_, ?_, ?_, sorted_valueCounts _, ?_⟩
  · intro p hp
    exact mem_valueCounts.mp hp
  · intro inst hi
    exact mem_valueCounts.mpr ⟨hi, rfl⟩
  · rw [countByInstitution, sum_valueCounts, List.length_map]
  · intro c
    exact filter_insertionSort c _

/-- Witness for C5 (amended) at a concrete record list. -/
theorem countByInstitution_spec_witness :
    ("UniB" ∈ [recUB, recUA].map (fun r => r.etablissement) ∧
      (1 : Nat) = ([recUB, recUA].map (fun r => r.etablissement)).count "UniB") ∧
    ("UniA", ([recUB, recUA].map (fun r => r.etablissement)).count "UniA") ∈
      countByInstitution [recUB, recUA] := by
  have h := countByInstitution_spec [recUB, recUA]
  exact ⟨h.1 ("UniB", 1) (by decide), h.2.1 "UniA" (by decide)⟩

/-! ### C6: top privileges -/

/-- C6: `topPrivileges R k` returns at most `k` pairs, sorted by descending
count over all privilege occurrences of `R`, with ties kept in first-seen
order (restricting to any fixed count gives a subsequence of the
first-occurrence-ordered count pairs); it is deterministic (the embedding is
a pure function, so re-running on the same `R` is literally the same term),
and the source instantiates it at `k = 5`. -/
theorem topPrivileges_spec (R : List UserRecord) (k : Nat) :
    (topPrivileges R k).length ≤ k ∧
    (topPrivileges R k).Pairwise (fun a b => b.2 ≤ a.2) ∧
    (∀ c, ((topPrivileges R k).filter (fun e => e.2 = c)).Sublist
      ((countPairs (allPrivilegeOccurrences R)).filter (fun e => e.2 = c))) ∧
    topPrivileges R k = topPrivileges R k ∧
    top_privileges R = topPrivileges R 5 := by
  refine ⟨?_, ?_, ?_, rfl, rfl⟩
  · rw [topPrivileges]
    simp only [List.length_take]
    exact Nat.min_le_left k _
  · exact (sorted_valueCounts _).sublist (List.take_sublist k _)
  · intro c
    have h1 : ((topPrivileges R k).filter (fun e => e.2 = c)).Sublist
        ((valueCounts (allPrivilegeOccurrences R)).filter (fun e => e.2 = c)) :=
      (List.take_sublist k _).filter _
    rwa [show (valueCounts (allPrivilegeOccurrences R)).filter (fun e => e.2 = c) =
        (countPairs (allPrivilegeOccurrences R)).filter (fun e => e.2 = c) from
      filter_insertionSort c _] at h1

/-- Witness for C6 at a concrete record list. -/
theorem topPrivileges_spec_witness :
    (topPrivileges [recA, recB, recT] 2).length ≤ 2 ∧
    top_privileges [recA, recB, recT] = topPrivileges [recA, recB, recT] 5 :=
  ⟨(topPrivileges_spec [recA, recB, recT] 2).1,
    (topPrivileges_spec [recA, recB, recT] 2).2.2.2.2⟩

/-! ### C7: loader failure conditions -/

theorem idxOfName_isSome (hs : List String) (name : String) :
    (idxOfName hs name).isSome = true ↔ name ∈ hs := by
  induction hs with
  | nil => simp [idxOfName]
  | cons h hst ih =>
    rw [idxOfName]
    split_ifs with hh
    · subst hh
      simp
    · simp only [Option.isSome_map']
      rw [ih]
      simp only [List.mem_cons]
      constructor
      · exact fun hm => Or.inr hm
      · rintro (rfl | hm)
        · exact absurd rfl hh
        · exact hm

theorem getCol_isSome (t : RawTable) (name : String) :
    (getCol t name).isSome = true ↔ name ∈ t.headers := by
  have h2 := idxOfName_isSome t.headers name
  rw [getCol]
  cases h : idxOfName t.headers name with
  | none =>
    rw [h] at h2
    simp only [Option.isSome_none, Bool.false_eq_true, false_iff] at h2
    simpa using h2
  | some i =>
    rw [h] at h2
    simp only [Option.isSome_some, true_iff] at h2
    simpa using h2

/-- C7 counterexample: a table without the required `Etablissement` column
(but with the three columns the loader touches) is parsed successfully — the
loader does produce a record set, contradicting "missing any one of the six
required columns is a blocking ParseError". -/
theorem charger_donnees_missing_col_cex :
    "Etablissement" ∉ tMissing.headers ∧
    (charger_donnees (some tMissing)).isSome = true :=
  ⟨by decide, by decide⟩

/-- C7 as amended: the loader fails (error message, no data at all) exactly
when the file itself is unreadable (`none` input: wrong encoding or
unparsable structure) or one of the three columns it derives from —
`'Privilèges APOGEE'`, `'Centre Gestion'`, `'Centre Traitement'` — is
missing; a missing `'Nom & Prenom'`, `'Email'` or `'Etablissement'` column is
not detected at parse time (it surfaces later, outside the loader). -/
theorem charger_donnees_spec (t : RawTable) :
    charger_donnees none = none ∧
    ((charger_donnees (some t)).isSome = true ↔
      "Privilèges APOGEE" ∈ t.headers ∧ "Centre Gestion" ∈ t.headers ∧
        "Centre Traitement" ∈ t.headers) := by
  refine ⟨rfl, ?_⟩
  have hmid : (charger_donnees (some t)).isSome = true ↔
      ((getCol t "Privilèges APOGEE").isSome = true ∧
        (getCol t "Centre Gestion").isSome = true ∧
        (getCol t "Centre Traitement").isSome = true) := by
    cases h1 : getCol t "Privilèges APOGEE" <;> cases h2 : getCol t "Centre Gestion" <;>
      cases h3 : getCol t "Centre Traitement" <;> simp [charger_donnees, h1, h2, h3]
  rw [hmid, getCol_isSome, getCol_isSome, getCol_isSome]

/-- Witness for C7 (amended) at the concrete table `t0`. -/
theorem charger_donnees_spec_witness :
    charger_donnees none = none ∧
    ((charger_donnees (some t0)).isSome = true ↔
      "Privilèges APOGEE" ∈ t0.headers ∧ "Centre Gestion" ∈ t0.headers ∧
        "Centre Traitement" ∈ t0.headers) :=
  charger_donnees_spec t0

/-! ### C9: filtering never mutates the parsed record set -/

/-- C9: the filter pipeline leaves the session's parsed record set
unchanged and only derives a subsequence of it — every record of the derived
view is literally a record of the source set, all fields included. -/
theorem runFilters_frame (s : Session) (etablissements selection : List String) :
    (runFilters s etablissements selection).1 = s ∧
    (runFilters s etablissements selection).2.Sublist s.df ∧
    ∀ r ∈ (runFilters s etablissements selection).2, r ∈ s.df := by
  have hsub : (runFilters s etablissements selection).2.Sublist s.df := by
    show (filterByAnyPrivilege (filterByInstitution s.df etablissements) selection).Sublist s.df
    have h1 : (filterByInstitution s.df etablissements).Sublist s.df := List.filter_sublist _
    rw [filterByAnyPrivilege]
    split_ifs with h
    · exact h1
    · exact (List.filter_sublist _).trans h1
  exact ⟨rfl, hsub, fun r hr => hsub.subset hr⟩

/-- Witness for C9 at a concrete session. -/
theorem runFilters_frame_witness :
    (runFilters ⟨[recA, recT]⟩ ["UniA"] ["Gestion"]).1 = Session.mk [recA, recT] ∧
    recA ∈ [recA, recT] :=
  ⟨(runFilters_frame ⟨[recA, recT]⟩ ["UniA"] ["Gestion"]).1,
    (runFilters_frame ⟨[recA, recT]⟩ ["UniA"] ["Gestion"]).2.2 recA (by decide)⟩

/-! ### C8: export and round trip -/

theorem nettoyer_exportCell (c : Option String) :
    nettoyer_liste (exportCell c) = nettoyer_liste c := by
  match c with
  | none => rfl
  | some s =>
    rw [exportCell]
    split_ifs with h
    · subst h
      decide
    · rfl

theorem idxOfName_append {hs : List String} {name : String} {i : Nat}
    (h : idxOfName hs name = some i) (extra : List String) :
    idxOfName (hs ++ extra) name = some i := by
  induction hs generalizing i with
  | nil => simp [idxOfName] at h
  | cons x xs ih =>
    rw [List.cons_append, idxOfName]
    rw [idxOfName] at h
    split_ifs with hx
    · rw [if_pos hx] at h
      exact h
    · rw [if_neg hx] at h
      rcases Option.map_eq_some'.mp h with ⟨j, hj, hji⟩
      rw [ih hj, Option.map_some', hji]

theorem idxOfName_lt_length {hs : List String} {name : String} {i : Nat}
    (h : idxOfName hs name = some i) : i < hs.length := by
  induction hs generalizing i with
  | nil => simp [idxOfName] at h
  | cons x xs ih =>
    rw [idxOfName] at h
    split_ifs at h with hx
    · cases h
      simp
    · rcases Option.map_eq_some'.mp h with ⟨j, hj, hji⟩
      rw [← hji, List.length_cons]
      exact Nat.succ_lt_succ (ih hj)

theorem cell_join_exportCell (o : Option (Option String)) :
    (o.map exportCell).join = exportCell o.join := by
  match o with
  | none => rfl
  | some c => rfl

theorem exportRows_col (i : Nat) (rows : List (List (Option String)))
    (ps gs ts : List (List String)) (h1 : ps.length = rows.length)
    (h2 : gs.length = rows.length) (h3 : ts.length = rows.length)
    (h4 : ∀ row ∈ rows, i < row.length) :
    (exportRows rows ps gs ts).map (fun row => (row[i]?).join) =
      rows.map (fun row => exportCell ((row[i]?).join)) := by
  induction rows generalizing ps gs ts with
  | nil =>
    cases ps with
    | nil => rfl
    | cons p ps => simp at h1
  | cons r rs ih =>
    cases ps with
    | nil => simp at h1
    | cons p ps =>
      cases gs with
      | nil => simp at h2
      | cons g gs =>
        cases ts with
        | nil => simp at h3
        | cons t ts =>
          rw [exportRows, List.map_cons, List.map_cons]
          congr 1
          · have hi : i < (r.map exportCell).length := by
              rw [List.length_map]
              exact h4 r (List.mem_cons_self r rs)
            rw [List.getElem?_append_left hi, List.getElem?_map]
            exact cell_join_exportCell _
          · exact ih ps gs ts (by simpa using h1) (by simpa using h2) (by simpa using h3)
              (fun row hrow => h4 row (List.mem_cons_of_mem _ hrow))

theorem length_of_getCol {t : RawTable} {name : String} {col : List (Option String)}
    (h : getCol t name = some col) : col.length = t.rows.length := by
  rw [getCol] at h
  rcases Option.map_eq_some'.mp h with ⟨i, _, hcol⟩
  rw [← hcol, List.length_map]

theorem getCol_exportTable {d : LoadedData} (hc : Coherent d) {name : String}
    {col : List (Option String)} (h : getCol d.table name = some col) :
    getCol (exportTable d) name = some (col.map exportCell) := by
  obtain ⟨⟨pc, hpc, hpriv⟩, ⟨cg, hcg, hg⟩, ⟨ct, hct, htr⟩, hrow⟩ := hc
  have hlp : d.privileges.length = d.table.rows.length := by
    rw [hpriv, List.length_map, length_of_getCol hpc]
  have hlg : d.centres_gestion.length = d.table.rows.length := by
    rw [hg, List.length_map, length_of_getCol hcg]
  have hlt : d.centres_traitement.length = d.table.rows.length := by
    rw [htr, List.length_map, length_of_getCol hct]
  rw [getCol] at h
  rcases Option.map_eq_some'.mp h with ⟨i, hi, hcol⟩
  rw [getCol, exportTable]
  rw [idxOfName_append hi, Option.map_some']
  congr 1
  rw [exportRows_col i d.table.rows d.privileges d.centres_gestion d.centres_traitement
    hlp hlg hlt (fun row hr => by rw [hrow row hr]; exact idxOfName_lt_length hi)]
  rw [← hcol, List.map_map]
  rfl

theorem maskList_map {α β : Type} (f : α → β) (m : List Bool) (l : List α) :
    maskList m (l.map f) = (maskList m l).map f := by
  induction m generalizing l with
  | nil => rfl
  | cons b bs ih =>
    cases l with
    | nil => rfl
    | cons x xs =>
      rw [List.map_cons, maskList, maskList]
      by_cases hb : b <;> simp [hb, ih]

theorem mem_maskList {α : Type} {a : α} (m : List Bool) (l : List α)
    (h : a ∈ maskList m l) : a ∈ l := by
  induction m generalizing l with
  | nil => simp [maskList] at h
  | cons b bs ih =>
    cases l with
    | nil => simp [maskList] at h
    | cons x xs =>
      rw [maskList] at h
      by_cases hb : b
      · rw [if_pos hb] at h
        rcases List.mem_cons.mp h with h0 | hm
        · exact List.mem_cons.mpr (Or.inl h0)
        · exact List.mem_cons.mpr (Or.inr (ih xs hm))
      · rw [if_neg hb] at h
        exact List.mem_cons_of_mem x (ih xs h)

theorem getCol_maskData {d : LoadedData} {name : String} {col : List (Option String)}
    (mask : List Bool) (h : getCol d.table name = some col) :
    getCol (maskData d mask).table name = some (maskList mask col) := by
  rw [getCol] at h
  rcases Option.map_eq_some'.mp h with ⟨i, hi, hcol⟩
  rw [getCol, maskData]
  rw [show (⟨⟨d.table.headers, maskList mask d.table.rows⟩, maskList mask d.privileges,
      maskList mask d.centres_gestion, maskList mask d.centres_traitement⟩ :
        LoadedData).table.headers = d.table.headers from rfl]
  rw [hi, Option.map_some']
  congr 1
  rw [show (⟨⟨d.table.headers, maskList mask d.table.rows⟩, maskList mask d.privileges,
      maskList mask d.centres_gestion, maskList mask d.centres_traitement⟩ :
        LoadedData).table.rows = maskList mask d.table.rows from rfl]
  rw [← hcol, maskList_map]

/-- C8 as amended: (a) the loader's output is coherent — its three list
columns are exactly the re-parses of the corresponding raw columns; (b) row
selection (filtering) preserves coherence; (c) exporting a coherent (e.g.
filtered) frame and re-parsing the export with the loader succeeds and yields
the same normalized list fields — the semantic round trip goes through the
raw source columns, which the export preserves, not through the
`str(list)`-serialized derived columns. -/
theorem export_round_trip :
    (∀ t d, charger_donnees (some t) = some d →
      (∀ row ∈ t.rows, row.length = t.headers.length) → Coherent d) ∧
    (∀ d mask, Coherent d → Coherent (maskData d mask)) ∧
    (∀ d, Coherent d → ∃ d2, charger_donnees (some (exportTable d)) = some d2 ∧
      d2.privileges = d.privileges ∧ d2.centres_gestion = d.centres_gestion ∧
      d2.centres_traitement = d.centres_traitement) := by
  refine ⟨?_, ?_, ?_⟩
  · intro t d h hrowlen
    cases h1 : getCol t "Privilèges APOGEE" with
    | none => simp [charger_donnees, h1] at h
    | some pc =>
      cases h2 : getCol t "Centre Gestion" with
      | none => simp [charger_donnees, h1, h2] at h
      | some cg =>
        cases h3 : getCol t "Centre Traitement" with
        | none => simp [charger_donnees, h1, h2, h3] at h
        | some ct =>
          simp only [charger_donnees, h1, h2, h3, Option.some.injEq] at h
          subst h
          exact ⟨⟨pc, h1, rfl⟩, ⟨cg, h2, rfl⟩, ⟨ct, h3, rfl⟩, hrowlen⟩
  · intro d mask hc
    obtain ⟨⟨pc, hpc, hpriv⟩, ⟨cg, hcg, hg⟩, ⟨ct, hct, htr⟩, hrow⟩ := hc
    refine ⟨⟨maskList mask pc, getCol_maskData mask hpc, ?_⟩,
      ⟨maskList mask cg, getCol_maskData mask hcg, ?_⟩,
      ⟨maskList mask ct, getCol_maskData mask hct, ?_⟩, ?_⟩
    · show maskList mask d.privileges = _
      rw [hpriv, maskList_map]
    · show maskList mask d.centres_gestion = _
      rw [hg, maskList_map]
    · show maskList mask d.centres_traitement = _
      rw [htr, maskList_map]
    · intro row hr
      exact hrow row (mem_maskList mask d.table.rows hr)
  · intro d hc
    obtain ⟨⟨pc, hpc, hpriv⟩, ⟨cg, hcg, hg⟩, ⟨ct, hct, htr⟩, hrow⟩ := hc
    have e1 := getCol_exportTable ⟨⟨pc, hpc, hpriv⟩, ⟨cg, hcg, hg⟩, ⟨ct, hct, htr⟩, hrow⟩ hpc
    have e2 := getCol_exportTable ⟨⟨pc, hpc, hpriv⟩, ⟨cg, hcg, hg⟩, ⟨ct, hct, htr⟩, hrow⟩ hcg
    have e3 := getCol_exportTable ⟨⟨pc, hpc, hpriv⟩, ⟨cg, hcg, hg⟩, ⟨ct, hct, htr⟩, hrow⟩ hct
    refine ⟨⟨exportTable d, (pc.map exportCell).map nettoyer_liste,
      (cg.map exportCell).map nettoyer_liste, (ct.map exportCell).map nettoyer_liste⟩,
      ?_, ?_, ?_, ?_⟩
    · simp [charger_donnees, e1, e2, e3]
    · show (pc.map exportCell).map nettoyer_liste = d.privileges
      rw [hpriv, List.map_map]
      exact List.map_congr_left (fun c _ => nettoyer_exportCell c)
    · show (cg.map exportCell).map nettoyer_liste = d.centres_gestion
      rw [hg, List.map_map]
      exact List.map_congr_left (fun c _ => nettoyer_exportCell c)
    · show (ct.map exportCell).map nettoyer_liste = d.centres_traitement
      rw [htr, List.map_map]
      exact List.map_congr_left (fun c _ => nettoyer_exportCell c)

/-- C8 counterexample: the export serializes a list-valued column as a Python
list literal, not with the input comma rule — re-parsing the serialized cell
under the input splitting rule does not recover the original sequence. -/
theorem export_repr_cex :
    getCol (exportTable d0) "Privileges" = some [some "['Théses HDR', 'Gestion']"] ∧
    d0.privileges = [["Théses HDR", "Gestion"]] ∧
    nettoyer_liste (some "['Théses HDR', 'Gestion']") ≠ ["Théses HDR", "Gestion"] :=
  ⟨by decide, by decide, by decide⟩

/-- Witness for C8 (amended): load the concrete table `t0`, filter it with a
mask, export, re-parse, and obtain the same normalized privileges. -/
theorem export_round_trip_witness :
    Coherent d0 ∧ Coherent (maskData d0 [true]) ∧
    ∃ d2, charger_donnees (some (exportTable (maskData d0 [true]))) = some d2 ∧
      d2.privileges = (maskData d0 [true]).privileges := by
  have h := export_round_trip
  have hc : Coherent d0 := h.1 t0 d0 (by decide) (by decide)
  have hcm : Coherent (maskData d0 [true]) := h.2.1 d0 [true] hc
  obtain ⟨d2, ha, hb, -, -⟩ := h.2.2 (maskData d0 [true]) hcm
  exact ⟨hc, hcm, d2, ha, hb⟩

end AppApogee
